import Mathlib

/-!
Shallow embedding of the `house-of-cards` repository: two near-duplicate CLI
variants (`hoc/cli.py` and `dircreator/cli.py`) that parse a box-drawing tree
diagram into an in-memory tree and materialize it as directories and files.

Python strings are modelled as Lean `String` / `List Char`; the regex line
classifiers are modelled as backtracking matchers with exactly the greedy
semantics of the source patterns; filesystem side effects are modelled as an
explicit effect list.
-/

/-- Python `str.strip()` whitespace set (ASCII part, which is all the inputs use):
space, tab, newline, carriage return, vertical tab, form feed. -/
def isPySpace (c : Char) : Bool :=
  c = ' ' || c = '\t' || c = '\n' || c = '\r' || c = Char.ofNat 11 || c = Char.ofNat 12

/-- Python `str.strip()` on a character list: drop leading and trailing whitespace. -/
def pyStripL (cs : List Char) : List Char :=
  ((cs.dropWhile isPySpace).reverse.dropWhile isPySpace).reverse

/-- Python `s.split("\n")`: split on newline, keeping empty segments
(`"".split("\n") == [""]`). -/
def splitNl : List Char → List (List Char)
  | [] => [[]]
  | '\n' :: rest => [] :: splitNl rest
  | c :: rest =>
    match splitNl rest with
    | s :: ss => (c :: s) :: ss
    | [] => [[c]]

/-- Python `line.replace("\t", "    ")`: each tab becomes four spaces. -/
def replaceTabs (cs : List Char) : List Char :=
  cs.flatMap fun c => if c = '\t' then [' ', ' ', ' ', ' '] else [c]

/-- POSIX `os.path.join(a, b)`: `b` if it is absolute; otherwise concatenate,
inserting a single separator only when `a` is nonempty and does not already
end with one. (`b.startswith("/")` and `a.endswith("/")` are stated on the
character lists, which is the same test for the one-character separator.) -/
def posixJoin (a b : String) : String :=
  if b.toList.head? = some '/' then b
  else if a.toList.isEmpty || a.toList.getLast? = some '/' then a ++ b
  else a ++ "/" ++ b

/-- Index of the last occurrence of `c` in the list, if any. -/
def lastIdxOf (c : Char) : List Char → Option Nat
  | [] => none
  | x :: xs =>
    match lastIdxOf c xs with
    | some i => some (i + 1)
    | none => if x = c then some 0 else none

/-- Drop trailing `/` characters (Python `head.rstrip('/')`). -/
def dropTrailSlashes (cs : List Char) : List Char :=
  (cs.reverse.dropWhile (· = '/')).reverse

/-- POSIX `os.path.dirname`: everything up to the last `/`, with trailing
slashes stripped unless the prefix consists only of slashes. -/
def dirname (p : String) : String :=
  match lastIdxOf '/' p.toList with
  | none => ""
  | some i =>
    let head := p.toList.take (i + 1)
    if head.all (· = '/') then String.mk head
    else String.mk (dropTrailSlashes head)

/-- A filesystem side effect issued by the materializer:
`mkdirs p` is `os.makedirs(p, exist_ok=True)`, `createFile p` is
`open(p, "w")` creating/truncating an empty file, `chmod p m` is `os.chmod`. -/
inductive FsEffect where
  | mkdirs (path : String)
  | createFile (path : String)
  | chmod (path : String) (mode : Nat)
deriving DecidableEq, Repr

/-- Replace the continuation glyph by a space (Python `indent.replace("│", " ")`,
applied character-wise since the pattern is a single character). -/
def replBar (c : Char) : Char := if c = '│' then ' ' else c

/-- Number of complete leading 4-column indentation units: four literal spaces,
or the continuation glyph followed by three spaces. -/
def countUnits : List Char → Nat
  | ' ' :: ' ' :: ' ' :: ' ' :: rest => countUnits rest + 1
  | '│' :: ' ' :: ' ' :: ' ' :: rest => countUnits rest + 1
  | _ => 0

/-- The list is a concatenation of complete 4-column indentation units. -/
def isUnitList : List Char → Bool
  | [] => true
  | ' ' :: ' ' :: ' ' :: ' ' :: rest => isUnitList rest
  | '│' :: ' ' :: ' ' :: ' ' :: rest => isUnitList rest
  | _ => false

namespace Hoc

/-- Tail of `hoc`'s line regex after the indentation group:
`(?:(?P<connector>[├└])── )?(?P<name>.+)$`. The optional connector group is
greedy: it participates when it matches and leaves a nonempty name; otherwise
the whole rest of the line (which must be nonempty) is the name. -/
def matchRest (cs : List Char) : Option (Option Char × List Char) :=
  match cs with
  | '├' :: '─' :: '─' :: ' ' :: rest =>
    if rest.isEmpty then some (none, cs) else some (some '├', rest)
  | '└' :: '─' :: '─' :: ' ' :: rest =>
    if rest.isEmpty then some (none, cs) else some (some '└', rest)
  | _ => if cs.isEmpty then none else some (none, cs)

/-- `hoc`'s full line regex
`^(?P<indent>(?: {4}|\│   )*)(?:(?P<connector>[├└])── )?(?P<name>.+)$`
with Python's greedy-star backtracking: consume as many indentation units as
possible, giving units back one at a time when the tail fails to match.
Returns (indent capture, connector capture, name capture). -/
def matchLine (cs : List Char) : Option (List Char × Option Char × List Char) :=
  match cs with
  | ' ' :: ' ' :: ' ' :: ' ' :: rest =>
    (match matchLine rest with
     | some (ind, c, nm) => some (' ' :: ' ' :: ' ' :: ' ' :: ind, c, nm)
     | none => (matchRest cs).map fun p => ([], p.1, p.2))
  | '│' :: ' ' :: ' ' :: ' ' :: rest =>
    (match matchLine rest with
     | some (ind, c, nm) => some ('│' :: ' ' :: ' ' :: ' ' :: ind, c, nm)
     | none => (matchRest cs).map fun p => ([], p.1, p.2))
  | _ => (matchRest cs).map fun p => ([], p.1, p.2)

/-- `hoc`'s depth computation: the indent capture with the continuation glyph
replaced by a space, its length integer-divided by 4, plus 1 when the
connector group matched (`cli.py` lines 66–69). -/
def depthOf (ind : List Char) (conn : Option Char) : Nat :=
  (ind.map replBar).length / 4 + (if conn.isSome then 1 else 0)

/-- `hoc.cli.TreeNode`: name (stored raw, trailing marker intact), the
`is_dir` flag, the `full_path` computed at construction from the parent's
path, and the ordered children. -/
inductive TreeNode where
  | mk (name : String) (is_dir : Bool) (full_path : String) (children : List TreeNode)
deriving Repr

def TreeNode.name : TreeNode → String
  | .mk n _ _ _ => n

def TreeNode.is_dir : TreeNode → Bool
  | .mk _ d _ _ => d

def TreeNode.full_path : TreeNode → String
  | .mk _ _ p _ => p

def TreeNode.children : TreeNode → List TreeNode
  | .mk _ _ _ cs => cs

/-- `TreeNode.add_child`: append the child and force `is_dir` to `True`
("A node with children is a directory"). -/
def addChild (p c : TreeNode) : TreeNode :=
  .mk p.name true p.full_path (p.children ++ [c])

/-- Replace the last child of `p` by `r`: models the fact that a Python
mutation of the last-child object is visible through the parent's reference. -/
def withLastChild (p r : TreeNode) : TreeNode :=
  .mk p.name p.is_dir p.full_path (p.children.dropLast ++ [r])

mutual

/-- All nodes of a tree: the node itself and, recursively, the nodes of its
children. -/
def allNodes : TreeNode → List TreeNode
  | .mk n d p cs => .mk n d p cs :: allNodesList cs

/-- All nodes of a forest. -/
def allNodesList : List TreeNode → List TreeNode
  | [] => []
  | c :: cs => allNodes c ++ allNodesList cs

end

/-- The `ValueError`s raised by `hoc.cli.parse_tree_structure`, carrying the
offending line where the message names it. -/
inductive ParseError where
  | emptyInput
  | invalidLineFormat (line : List Char)
  | inconsistentIndentation (line : List Char)
deriving DecidableEq, Repr

/-- Parser state: `node_stack` as the list of current-ancestor node values
(each element's last child is the next element), plus the already-finished
roots. The current root is `stack.head`; the Python `roots` list is
`oldRoots ++ stack.take 1`. -/
structure ParseState where
  oldRoots : List TreeNode
  stack : List TreeNode
deriving Repr

/-- Attach a new node named `nm` (directory flag `dfl`) as the last child of
the last element of the stack, rebuilding every ancestor on the spine so the
mutation is visible from the root: models `TreeNode(name, is_dir, parent)`
followed by `node_stack.append(node)` on `node_stack[:depth]`. -/
def attachNew (s : List TreeNode) (nm : String) (dfl : Bool) : List TreeNode :=
  match s with
  | [] => [.mk nm dfl nm []]
  | [p] =>
    let node : TreeNode := .mk nm dfl (posixJoin p.full_path nm) []
    [addChild p node, node]
  | p :: q :: rest =>
    match attachNew (q :: rest) nm dfl with
    | r :: rest' => withLastChild p r :: r :: rest'
    | [] => []

/-- One iteration of the main loop of `hoc.cli.parse_tree_structure`
(lines 56–82) on an already-non-blank line. -/
def step (st : ParseState) (line : List Char) : Except ParseError ParseState :=
  match matchLine line with
  | none => .error (.invalidLineFormat line)
  | some (ind, conn, nm) =>
    let depth := depthOf ind conn
    let name := String.mk nm
    let is_dir : Bool := nm.getLast? = some '/'
    if depth = 0 then
      .ok ⟨st.oldRoots ++ st.stack.take 1, [.mk name is_dir name []]⟩
    else if st.stack.length < depth then
      .error (.inconsistentIndentation line)
    else
      .ok ⟨st.oldRoots, attachNew (st.stack.take depth) name is_dir⟩

/-- The loop over lines: blank lines are skipped, others go through `step`. -/
def parseLines : List (List Char) → ParseState → Except ParseError ParseState
  | [], st => .ok st
  | l :: ls, st =>
    if (pyStripL l).isEmpty then parseLines ls st
    else
      match step st l with
      | .error e => .error e
      | .ok st' => parseLines ls st'

/-- `hoc.cli.parse_tree_structure`: strip the whole input, split on newlines,
fail on all-blank input, expand tabs, then run the loop; returns the list of
root nodes. -/
def parse_tree_structure (s : String) : Except ParseError (List TreeNode) :=
  let lines := splitNl (pyStripL s.toList)
  if lines.all fun l => (pyStripL l).isEmpty then .error .emptyInput
  else
    (parseLines (lines.map replaceTabs) ⟨[], []⟩).map fun st =>
      st.oldRoots ++ st.stack.take 1

mutual

/-- `hoc.cli.create_node_structure` as an effect list: a node that is a
directory (flag set, or children present) gets `makedirs` on its full path,
an optional `chmod`, then its children in order; otherwise the parent
directory is ensured, an empty file created, and an optional `chmod` done. -/
def create_node_structure (basePath : String) (dp fp : Option Nat) :
    TreeNode → List FsEffect
  | .mk _ d p cs =>
    let fullPath := posixJoin basePath p
    if d || !cs.isEmpty then
      .mkdirs fullPath ::
        ((match dp with | some m => [FsEffect.chmod fullPath m] | none => []) ++
          createChildrenStructure basePath dp fp cs)
    else
      [.mkdirs (dirname fullPath), .createFile fullPath] ++
        (match fp with | some m => [FsEffect.chmod fullPath m] | none => [])

/-- The loop over `node.children` inside `create_node_structure`. -/
def createChildrenStructure (basePath : String) (dp fp : Option Nat) :
    List TreeNode → List FsEffect
  | [] => []
  | c :: cs =>
    create_node_structure basePath dp fp c ++ createChildrenStructure basePath dp fp cs

end

/-- `hoc.cli.create_structure_from_tree`: materialize every root in order. -/
def create_structure_from_tree (basePath : String) (nodes : List TreeNode)
    (dp fp : Option Nat) : List FsEffect :=
  match nodes with
  | [] => []
  | n :: ns => create_node_structure basePath dp fp n ++ create_structure_from_tree basePath ns dp fp

/-- The filesystem effects of `hoc.cli.main` (lines 188–217): the base path is
created first when absent; then, only if the input is non-blank and parsing
succeeds, the tree is materialized. Reading input and exiting are pure I/O
and not modelled. -/
def mainEffects (baseExists : Bool) (basePath : String) (input : String)
    (dp fp : Option Nat) : List FsEffect :=
  (if baseExists then [] else [.mkdirs basePath]) ++
    (if (pyStripL input.toList).isEmpty then []
     else
       match parse_tree_structure input with
       | .ok roots => create_structure_from_tree basePath roots dp fp
       | .error _ => [])

end Hoc

namespace Dircreator

/-- Entry type stored in `dircreator`'s tree dict. -/
inductive DcType where
  | dir
  | file
deriving DecidableEq, Repr

/-- Tail of `dircreator`'s line regex: the connector group
`(?P<connector>[├└]── )` is mandatory; the name `.+` must be nonempty. -/
def dcMatchRest (cs : List Char) : Option (List Char) :=
  match cs with
  | '├' :: '─' :: '─' :: ' ' :: rest => if rest.isEmpty then none else some rest
  | '└' :: '─' :: '─' :: ' ' :: rest => if rest.isEmpty then none else some rest
  | _ => none

/-- `dircreator`'s line regex
`^(?P<indent>(?:    |\│   )*)(?P<connector>[├└]── )(?P<name>.+)$` with greedy
backtracking on the indentation star. Returns (indent capture, name capture). -/
def dcMatchLine (cs : List Char) : Option (List Char × List Char) :=
  match cs with
  | ' ' :: ' ' :: ' ' :: ' ' :: rest =>
    (match dcMatchLine rest with
     | some (ind, nm) => some (' ' :: ' ' :: ' ' :: ' ' :: ind, nm)
     | none => (dcMatchRest cs).map fun nm => ([], nm))
  | '│' :: ' ' :: ' ' :: ' ' :: rest =>
    (match dcMatchLine rest with
     | some (ind, nm) => some ('│' :: ' ' :: ' ' :: ' ' :: ind, nm)
     | none => (dcMatchRest cs).map fun nm => ([], nm))
  | _ => (dcMatchRest cs).map fun nm => ([], nm)

/-- `dircreator`'s depth: indent length (glyph replaced by space) divided by 4,
plus 1 because the root is depth 0 (`cli.py` line 36). -/
def dcDepth (ind : List Char) : Nat :=
  (ind.map replBar).length / 4 + 1

/-- Python dict assignment `tree[k] = v` on an insertion-ordered association
list: an existing key keeps its position and gets the new value; a new key is
appended. -/
def dictInsert (m : List (String × DcType)) (k : String) (v : DcType) :
    List (String × DcType) :=
  if m.any fun p => p.1 = k then m.map fun p => if p.1 = k then (k, v) else p
  else m ++ [(k, v)]

/-- The root name derived from the first line: the stripped line, with `/`
appended when missing (`cli.py` lines 20–22). -/
def dcBaseName (l : List Char) : String :=
  let b := pyStripL l
  String.mk (if b.getLast? = some '/' then b else b ++ ['/'])

/-- `os.path.join(*path_stack)` for a nonempty stack: left fold of the binary
join. -/
def joinAll : List String → String
  | [] => ""
  | h :: t => t.foldl posixJoin h

/-- The loop of `dircreator.cli.parse_tree_structure` (lines 13–52): `idx` is
the raw line index; blank lines are skipped; line 0 sets the root; other
lines are matched against the connector regex and silently skipped when they
do not match; matched lines are stripped, depth-resolved, and upserted into
the insertion-ordered tree dict. -/
def dcLoop : List (List Char) → Nat → List String → List (String × DcType) →
    List (String × DcType)
  | [], _, _, tree => tree
  | l :: ls, idx, stack, tree =>
    if (pyStripL l).isEmpty then dcLoop ls (idx + 1) stack tree
    else if idx = 0 then
      let base := dcBaseName l
      dcLoop ls (idx + 1) [base] (dictInsert tree base .dir)
    else
      match dcMatchLine l with
      | none => dcLoop ls (idx + 1) stack tree
      | some (ind, nm) =>
        let name := String.mk (pyStripL nm)
        let depth := dcDepth ind
        let stack := stack.take depth ++ [name]
        let path := joinAll stack
        dcLoop ls (idx + 1) stack
          (dictInsert tree path
            (if (pyStripL nm).getLast? = some '/' then .dir else .file))

/-- `dircreator.cli.parse_tree_structure`: strip, split on newlines, run the
loop. It has no error conditions of its own. -/
def dc_parse_tree_structure (s : String) : List (String × DcType) :=
  dcLoop (splitNl (pyStripL s.toList)) 0 [] []

/-- Python `os.path.splitext(p)[1]`: the extension starting at the last dot of
the basename, empty when that dot is a leading dot of the basename or there is
no dot after the last separator. -/
def dcExt (p : String) : String :=
  let cs := p.toList
  let base :=
    match lastIdxOf '/' cs with
    | none => cs
    | some i => cs.drop (i + 1)
  match lastIdxOf '.' base with
  | none => ""
  | some j =>
    if (base.take j).any fun c => c ≠ '.' then String.mk (base.drop j) else ""

/-- `dircreator.cli.set_permissions` (lines 57–65): directories get mode 755
unconditionally; files get 755 when the extension is `.py`, else 644. -/
def dc_set_permissions (fullPath : String) (itemType : DcType) : FsEffect :=
  if itemType = .dir then .chmod fullPath 0o755
  else if dcExt fullPath = ".py" then .chmod fullPath 0o755
  else .chmod fullPath 0o644

/-- `dircreator.cli.create_structure` (lines 68–79) as an effect list. -/
def dc_create_structure (basePath : String) (tree : List (String × DcType)) :
    List FsEffect :=
  tree.flatMap fun pt =>
    let fullPath := posixJoin basePath pt.1
    if pt.2 = .dir then [.mkdirs fullPath, dc_set_permissions fullPath .dir]
    else [.mkdirs (dirname fullPath), .createFile fullPath,
          dc_set_permissions fullPath .file]

/-- The filesystem effects of `dircreator.cli.main` (lines 94–117): base path
created first when absent; empty input aborts before any further effect;
otherwise the parsed tree is materialized. -/
def dcMainEffects (baseExists : Bool) (basePath : String) (input : String) :
    List FsEffect :=
  (if baseExists then [] else [.mkdirs basePath]) ++
    (if (pyStripL input.toList).isEmpty then []
     else dc_create_structure basePath (dc_parse_tree_structure input))

end Dircreator

/-- Strip trailing path separators, for comparing a directory path carrying a
trailing marker with its canonical spelling. -/
def dropTrailSlashStr (s : String) : String :=
  String.mk (dropTrailSlashes s.toList)

/-- Deduplicate keeping the first occurrence of each element. -/
def dedupKeepFirst (l : List String) : List String :=
  l.foldl (fun acc x => if x ∈ acc then acc else acc ++ [x]) []

/-- The distinct directories targeted by `mkdirs` effects, trailing separators
normalized away. -/
def createdDirs (effs : List FsEffect) : List String :=
  dedupKeepFirst (effs.filterMap fun e =>
    match e with
    | .mkdirs p => some (dropTrailSlashStr p)
    | _ => none)

/-- The files targeted by `createFile` effects. -/
def createdFiles (effs : List FsEffect) : List String :=
  effs.filterMap fun e =>
    match e with
    | .createFile p => some p
    | _ => none

/-- Every node of the tree that has at least one child carries `is_dir = true`. -/
def Hoc.DirOK (t : Hoc.TreeNode) : Prop :=
  ∀ m ∈ Hoc.allNodes t, m.children ≠ [] → m.is_dir = true

/-- Every child's `full_path` in the tree is the separator-aware join of its
parent's `full_path` with the child's raw (marker-intact) name. -/
def Hoc.PathOK (t : Hoc.TreeNode) : Prop :=
  ∀ m ∈ Hoc.allNodes t, ∀ c ∈ m.children,
    c.full_path = posixJoin m.full_path c.name

/-- The spine property of the parser stack: each element is the last child of
the element before it. -/
inductive ChainOK : List Hoc.TreeNode → Prop where
  | nil : ChainOK []
  | single (t : Hoc.TreeNode) : ChainOK [t]
  | cons (p q : Hoc.TreeNode) (rest : List Hoc.TreeNode)
      (h : p.children.getLast? = some q) (hc : ChainOK (q :: rest)) :
      ChainOK (p :: q :: rest)

/-- The parser-state invariant: all finished roots and all stack elements
satisfy the directory-promotion and path-join properties, and the stack is a
last-child spine. -/
def Hoc.StInv (st : Hoc.ParseState) : Prop :=
  (∀ r ∈ st.oldRoots, Hoc.DirOK r ∧ Hoc.PathOK r) ∧
  (∀ x ∈ st.stack, Hoc.DirOK x ∧ Hoc.PathOK x) ∧
  ChainOK st.stack

/-- No two adjacent separator characters anywhere in the list. -/
def noDoubleSep : List Char → Bool
  | [] => true
  | [_] => true
  | a :: b :: rest => !(a == '/' && b == '/') && noDoubleSep (b :: rest)

/-- The parsed tree of the C1 example input. -/
def c1Tree : Hoc.TreeNode :=
  .mk "root/" true "root/"
    [.mk "a/" true "root/a/" [.mk "b.txt" false "root/a/b.txt" []],
     .mk "c.txt" false "root/c.txt" []]

/-- C1: parsing `root/ / ├── a/ / │   └── b.txt / └── c.txt` yields exactly one
root `root/` with ordered children `a/` then `c.txt`, where `a/` has the single
child `b.txt`; materializing under `/tmp/x` creates exactly the directories
`/tmp/x/root` and `/tmp/x/root/a` and exactly the empty files
`/tmp/x/root/a/b.txt` and `/tmp/x/root/c.txt`, and nothing else (the complete
effect list contains only those directory and file creations). -/
theorem c1_example_parse_and_materialize :
    Hoc.parse_tree_structure "root/\n├── a/\n│   └── b.txt\n└── c.txt" =
      .ok [c1Tree] ∧
    Hoc.create_structure_from_tree "/tmp/x" [c1Tree] none none =
      [.mkdirs "/tmp/x/root/", .mkdirs "/tmp/x/root/a/", .mkdirs "/tmp/x/root/a",
       .createFile "/tmp/x/root/a/b.txt", .mkdirs "/tmp/x/root",
       .createFile "/tmp/x/root/c.txt"] ∧
    createdDirs (Hoc.create_structure_from_tree "/tmp/x" [c1Tree] none none) =
      ["/tmp/x/root", "/tmp/x/root/a"] ∧
    createdFiles (Hoc.create_structure_from_tree "/tmp/x" [c1Tree] none none) =
      ["/tmp/x/root/a/b.txt", "/tmp/x/root/c.txt"] := by
  refine ⟨?_, ?_, ?_, ?_⟩ <;> rfl

/-- Counterexample to C3 as stated: the input `a\nb` has a second processed
line of resolved depth 0, which is less than or equal to the stack length 1,
yet the code does not truncate the stack and attach `b` as the last child of
the node at position `d-1`: it creates a second root, and the first root keeps
no children. -/
theorem c3_counterexample_depth_zero_line :
    Hoc.parse_tree_structure "a\nb" =
      .ok [.mk "a" false "a" [], .mk "b" false "b" []] := by
  rfl

/-- Counterexample to C4 as stated: in the `hoc` variant the very first
processed line is not always treated as depth 0 — a first line carrying a
connector token resolves to depth 1, which exceeds the empty stack, so parsing
raises the inconsistent-indentation error instead of producing a root (the
repository's own test `test_parse_tree_structure_invalid` expects exactly
this). -/
theorem c4_counterexample_first_line_connector :
    Hoc.parse_tree_structure "├── README.md" =
      .error (.inconsistentIndentation "├── README.md".toList) := by
  rfl

/-- Counterexample to C5 as stated: in the `dircreator` variant the entry `a`
(no trailing marker) gains the child `b` in the source text, yet its tree
entry keeps type `file` and materialization issues a `createFile` for it, not
a directory creation. -/
theorem c5_counterexample_dircreator_no_promotion :
    Dircreator.dc_parse_tree_structure "r/\n├── a\n│   └── b" =
      [("r/", .dir), ("r/a", .file), ("r/a/b", .file)] ∧
    FsEffect.createFile "/b/r/a" ∈
      Dircreator.dc_create_structure "/b"
        (Dircreator.dc_parse_tree_structure "r/\n├── a\n│   └── b") := by
  exact ⟨rfl, by decide⟩

/-- Counterexample to C6 as stated: in the `dircreator` variant the non-first
line `xxx` fails the mandatory-connector pattern, and parsing does not fail
with any malformed-line error — the line is silently skipped and the parse
result contains only the root. -/
theorem c6_counterexample_silent_skip :
    Dircreator.dc_parse_tree_structure "r/\nxxx" = [("r/", .dir)] := by
  rfl

/-- Counterexample to C7 as stated: the constructed path of node `a/` under
root `root/` is `root/a/` — the trailing directory marker is not stripped when
joining, so a constructed path can end with the marker. -/
theorem c7_counterexample_trailing_marker_kept :
    Hoc.parse_tree_structure "root/\n└── a/" =
      .ok [.mk "root/" true "root/" [.mk "a/" true "root/a/" []]] ∧
    "root/a/".toList.getLast? = some '/' := by
  exact ⟨rfl, rfl⟩

/-- Counterexample to C8 as stated: a run of `hoc` whose base path is absent
and whose input fails parsing with an indentation error still performs a
filesystem mutation — the base directory is created before parsing begins. -/
theorem c8_counterexample_base_dir_created :
    Hoc.mainEffects false "/base" "├── x" none none = [.mkdirs "/base"] ∧
    Hoc.parse_tree_structure "├── x" =
      .error (.inconsistentIndentation "├── x".toList) := by
  exact ⟨rfl, rfl⟩

/-- Counterexample to C9 as stated: the `dircreator` variant has no permission
configuration at all, yet materializing the single-directory tree of input
`r/` applies a permission change (chmod 755) — the platform default is not
left untouched when no mode is configured. -/
theorem c9_counterexample_unconditional_chmod :
    Dircreator.dc_create_structure "/b" (Dircreator.dc_parse_tree_structure "r/") =
      [.mkdirs "/b/r/", .chmod "/b/r/" 0o755] := by
  rfl

/-! ### Lemmas about the line classifiers -/

lemma matchRest_isSome {cs : List Char} (h : cs ≠ []) : (Hoc.matchRest cs).isSome := by
  unfold Hoc.matchRest
  split
  · split <;> simp
  · split <;> simp
  · simp [h]

lemma matchLine_isSome {cs : List Char} (h : cs ≠ []) : (Hoc.matchLine cs).isSome := by
  induction cs using Hoc.matchLine.induct with
  | case1 rest ind c nm hm ih => simp [Hoc.matchLine, hm]
  | case2 rest hm ih =>
    rw [Hoc.matchLine, hm]
    simpa using matchRest_isSome (by simp)
  | case3 rest ind c nm hm ih => simp [Hoc.matchLine, hm]
  | case4 rest hm ih =>
    rw [Hoc.matchLine, hm]
    simpa using matchRest_isSome (by simp)
  | case5 t h1 h2 =>
    rw [Hoc.matchLine.eq_def]
    split
    · exact ((h1 _ rfl).elim)
    · exact ((h2 _ rfl).elim)
    · simpa using matchRest_isSome h

lemma matchLine_indent_units {cs ind nm : List Char} {conn : Option Char}
    (h : Hoc.matchLine cs = some (ind, conn, nm)) : isUnitList ind = true := by
  induction cs using Hoc.matchLine.induct generalizing ind conn nm with
  | case1 rest ind' c' nm' hm ih =>
    rw [Hoc.matchLine, hm] at h
    have h' := Option.some.inj h
    have hind : (' ' :: ' ' :: ' ' :: ' ' :: ind') = ind := by
      simpa using congrArg Prod.fst h'
    have hrest : isUnitList ind' = true := ih hm
    simp only [← hind]
    simpa [isUnitList] using hrest
  | case2 rest hm ih =>
    rw [Hoc.matchLine, hm] at h
    cases hmr : Hoc.matchRest (' ' :: ' ' :: ' ' :: ' ' :: rest) with
    | none => rw [hmr] at h; simp at h
    | some p =>
      rw [hmr] at h
      have h' : ind = [] ∧ p = (conn, nm) := by simpa using h
      simp [h'.1, isUnitList]
  | case3 rest ind' c' nm' hm ih =>
    rw [Hoc.matchLine, hm] at h
    have h' := Option.some.inj h
    have hind : ('│' :: ' ' :: ' ' :: ' ' :: ind') = ind := by
      simpa using congrArg Prod.fst h'
    have hrest : isUnitList ind' = true := ih hm
    simp only [← hind]
    simpa [isUnitList] using hrest
  | case4 rest hm ih =>
    rw [Hoc.matchLine, hm] at h
    cases hmr : Hoc.matchRest ('│' :: ' ' :: ' ' :: ' ' :: rest) with
    | none => rw [hmr] at h; simp at h
    | some p =>
      rw [hmr] at h
      have h' : ind = [] ∧ p = (conn, nm) := by simpa using h
      simp [h'.1, isUnitList]
  | case5 t h1 h2 =>
    rw [Hoc.matchLine.eq_def] at h
    have hx : ind = [] := by
      split at h
      · exact ((h1 _ rfl).elim)
      · exact ((h2 _ rfl).elim)
      · cases hmr : Hoc.matchRest t with
        | none => rw [hmr] at h; simp at h
        | some p =>
          rw [hmr] at h
          have h' : ind = [] ∧ p = (conn, nm) := by simpa using h
          exact h'.1
    simp [hx, isUnitList]

lemma dcMatchLine_indent_units {cs ind nm : List Char}
    (h : Dircreator.dcMatchLine cs = some (ind, nm)) : isUnitList ind = true := by
  induction cs using Dircreator.dcMatchLine.induct generalizing ind nm with
  | case1 rest ind' nm' hm ih =>
    rw [Dircreator.dcMatchLine, hm] at h
    have h' := Option.some.inj h
    have hind : (' ' :: ' ' :: ' ' :: ' ' :: ind') = ind := by
      simpa using congrArg Prod.fst h'
    have hrest : isUnitList ind' = true := ih hm
    simp only [← hind]
    simpa [isUnitList] using hrest
  | case2 rest hm ih =>
    rw [Dircreator.dcMatchLine, hm] at h
    cases hmr : Dircreator.dcMatchRest (' ' :: ' ' :: ' ' :: ' ' :: rest) with
    | none => rw [hmr] at h; simp at h
    | some p =>
      rw [hmr] at h
      have h' : ind = [] ∧ p = nm := by simpa using h
      simp [h'.1, isUnitList]
  | case3 rest ind' nm' hm ih =>
    rw [Dircreator.dcMatchLine, hm] at h
    have h' := Option.some.inj h
    have hind : ('│' :: ' ' :: ' ' :: ' ' :: ind') = ind := by
      simpa using congrArg Prod.fst h'
    have hrest : isUnitList ind' = true := ih hm
    simp only [← hind]
    simpa [isUnitList] using hrest
  | case4 rest hm ih =>
    rw [Dircreator.dcMatchLine, hm] at h
    cases hmr : Dircreator.dcMatchRest ('│' :: ' ' :: ' ' :: ' ' :: rest) with
    | none => rw [hmr] at h; simp at h
    | some p =>
      rw [hmr] at h
      have h' : ind = [] ∧ p = nm := by simpa using h
      simp [h'.1, isUnitList]
  | case5 t h1 h2 =>
    rw [Dircreator.dcMatchLine.eq_def] at h
    have hx : ind = [] := by
      split at h
      · exact ((h1 _ rfl).elim)
      · exact ((h2 _ rfl).elim)
      · cases hmr : Dircreator.dcMatchRest t with
        | none => rw [hmr] at h; simp at h
        | some p =>
          rw [hmr] at h
          have h' : ind = [] ∧ p = nm := by simpa using h
          exact h'.1
    simp [hx, isUnitList]

lemma isUnitList_length {ind : List Char} (h : isUnitList ind = true) :
    (ind.map replBar).length = 4 * countUnits ind := by
  induction ind using isUnitList.induct with
  | case1 => simp [countUnits]
  | case2 rest ih =>
    rw [isUnitList] at h
    simp only [List.map_cons, List.length_cons, countUnits, ih h]
    ring
  | case3 rest ih =>
    rw [isUnitList] at h
    simp only [List.map_cons, List.length_cons, countUnits, ih h]
    ring
  | case4 l h1 h2 h3 =>
    rw [isUnitList.eq_def] at h
    split at h <;> simp_all

/-- C2: for every line accepted by a classifier, the resolved depth is the
number of complete 4-column indentation units of the extracted indentation
prefix (a continuation glyph plus three spaces counting like four spaces)
plus 1 exactly when a connector token is present. In `hoc` the connector is
optional; in `dircreator` it is mandatory, so its contribution is always 1. -/
theorem c2_depth_is_units_plus_connector :
    (∀ cs ind nm : List Char, ∀ conn : Option Char,
       Hoc.matchLine cs = some (ind, conn, nm) →
       Hoc.depthOf ind conn = countUnits ind + if conn.isSome then 1 else 0) ∧
    (∀ cs ind nm : List Char,
       Dircreator.dcMatchLine cs = some (ind, nm) →
       Dircreator.dcDepth ind = countUnits ind + 1) := by
  constructor
  · intro cs ind nm conn h
    unfold Hoc.depthOf
    rw [isUnitList_length (matchLine_indent_units h)]
    omega
  · intro cs ind nm h
    unfold Dircreator.dcDepth
    rw [isUnitList_length (dcMatchLine_indent_units h)]
    omega

/-- Witness for C2 at the concrete line `│   └── b.txt` (hoc) and
`│   └── b` (dircreator): one indentation unit, connector present, depth 2. -/
theorem c2_depth_is_units_plus_connector_witness :
    Hoc.depthOf ['│', ' ', ' ', ' '] (some '└') = countUnits ['│', ' ', ' ', ' '] + 1 ∧
    Dircreator.dcDepth ['│', ' ', ' ', ' '] = countUnits ['│', ' ', ' ', ' '] + 1 := by
  constructor
  · have h := c2_depth_is_units_plus_connector.1 "│   └── b.txt".toList
      ['│', ' ', ' ', ' '] "b.txt".toList (some '└') (by rfl)
    simpa using h
  · exact c2_depth_is_units_plus_connector.2 "│   └── b".toList
      ['│', ' ', ' ', ' '] ['b'] (by rfl)

lemma step_not_invalid {st : Hoc.ParseState} {l0 : List Char} (h : l0 ≠ [])
    (l : List Char) : Hoc.step st l0 ≠ .error (.invalidLineFormat l) := by
  unfold Hoc.step
  cases hm : Hoc.matchLine l0 with
  | none =>
    have := matchLine_isSome h
    rw [hm] at this
    simp at this
  | some v =>
    obtain ⟨ind, conn, nm⟩ := v
    dsimp only
    split
    · simp
    · split <;> simp

lemma parseLines_no_invalid (lines : List (List Char)) (st : Hoc.ParseState)
    (l : List Char) : Hoc.parseLines lines st ≠ .error (.invalidLineFormat l) := by
  induction lines generalizing st with
  | nil => simp [Hoc.parseLines]
  | cons l0 ls ih =>
    rw [Hoc.parseLines]
    split
    · exact ih st
    · cases hs : Hoc.step st l0 with
      | error e =>
        have hne : l0 ≠ [] := by
          intro hnil
          subst hnil
          simp [pyStripL] at *
        intro hcontra
        simp only at hcontra
        rw [hcontra] at hs
        exact step_not_invalid hne l hs
      | ok st' => simpa using ih st'

/-- C10: `hoc`'s line-classifier pattern matches every nonempty (hence every
non-blank) line — the indentation group may match zero units and the name
group takes any remaining nonempty text — so `parse_tree_structure` can never
return its "Invalid line format" error. In particular the misaligned line
`      ├── x` (six spaces before the connector) is accepted with one
indentation unit, no connector, the stray spaces and connector glyphs
absorbed into the name, and the stray spaces contribute nothing to the
depth, which is 1. -/
theorem c10_classifier_total_invalid_branch_unreachable :
    (∀ cs : List Char, cs ≠ [] → (Hoc.matchLine cs).isSome) ∧
    (∀ (s : String) (l : List Char),
       Hoc.parse_tree_structure s ≠ .error (.invalidLineFormat l)) ∧
    Hoc.matchLine "      ├── x".toList =
      some ([' ', ' ', ' ', ' '], none, [' ', ' ', '├', '─', '─', ' ', 'x']) ∧
    Hoc.depthOf [' ', ' ', ' ', ' '] none = 1 := by
  refine ⟨fun cs h => matchLine_isSome h, ?_, by rfl, by rfl⟩
  intro s l
  unfold Hoc.parse_tree_structure
  simp only
  split
  · simp
  · intro hcontra
    cases hp : Hoc.parseLines ((splitNl (pyStripL s.toList)).map replaceTabs) ⟨[], []⟩ with
    | error e =>
      rw [hp] at hcontra
      simp only [Except.map] at hcontra
      rw [Except.error.inj hcontra] at hp
      exact parseLines_no_invalid _ _ _ hp
    | ok st =>
      rw [hp] at hcontra
      simp [Except.map] at hcontra

/-- Witness for C10: the pattern matches the concrete nonempty line `x`, and
parsing the concrete input `a` does not produce the invalid-line error. -/
theorem c10_classifier_total_witness :
    (Hoc.matchLine ['x']).isSome ∧
    Hoc.parse_tree_structure "a" ≠ .error (.invalidLineFormat ['a']) :=
  ⟨c10_classifier_total_invalid_branch_unreachable.1 ['x'] (by decide),
   c10_classifier_total_invalid_branch_unreachable.2.1 "a" ['a']⟩

/-! ### Lemmas about the tree-builder stack -/

lemma attachNew_spec (s : List Hoc.TreeNode) (nm : String) (b : Bool)
    (hs : s ≠ []) :
    ∃ parent : Hoc.TreeNode,
      s.getLast? = some parent ∧
      (Hoc.attachNew s nm b).length = s.length + 1 ∧
      (Hoc.attachNew s nm b).getLast? =
        some (.mk nm b (posixJoin parent.full_path nm) []) ∧
      (Hoc.attachNew s nm b)[s.length - 1]? =
        some (Hoc.addChild parent (.mk nm b (posixJoin parent.full_path nm) [])) := by
  induction s with
  | nil => exact absurd rfl hs
  | cons p t ih =>
    cases t with
    | nil =>
      refine ⟨p, rfl, ?_, ?_, ?_⟩ <;> simp [Hoc.attachNew]
    | cons q rest =>
      obtain ⟨parent, hlast, hlen, htip, hpar⟩ := ih (by simp)
      cases ht : Hoc.attachNew (q :: rest) nm b with
      | nil => rw [ht] at hlen; simp at hlen
      | cons r rest' =>
        rw [ht] at hlen htip hpar
        have hdef : Hoc.attachNew (p :: q :: rest) nm b =
            Hoc.withLastChild p r :: r :: rest' := by
          rw [Hoc.attachNew, ht]
        refine ⟨parent, ?_, ?_, ?_, ?_⟩
        · rw [List.getLast?_cons_cons]
          exact hlast
        · rw [hdef]
          simp only [List.length_cons] at hlen ⊢
          omega
        · rw [hdef, List.getLast?_cons_cons]
          exact htip
        · rw [hdef]
          have hidx : (p :: q :: rest).length - 1 = rest.length + 1 := by simp
          rw [hidx, List.getElem?_cons_succ]
          have hidx2 : (q :: rest).length - 1 = rest.length := by simp
          rw [hidx2] at hpar
          exact hpar

/-- Amended C3: for every classified line of resolved depth `d ≥ 1` arriving
at any parser state: when `d` exceeds the current stack length, `step` fails
with the inconsistent-indentation error naming the line (and, the step being
an error, no node is attached); when `d` is at most the stack length, the
step succeeds, the new stack has length `d + 1` (the stack truncated to `d`
plus the new node), the new node — carrying the classified name, the
directory flag, no children, and a path joined onto the parent's — is the
stack's last element, and the node at stack position `d - 1` becomes the old
one with the new node appended as its last child. (The unamended claim fails
only for later lines of depth 0, which start a new root instead of being
attached — see the counterexample.) -/
theorem c3_amended_depth_check_and_attachment
    (st : Hoc.ParseState) (line ind nm : List Char) (conn : Option Char)
    (hm : Hoc.matchLine line = some (ind, conn, nm))
    (hd : 1 ≤ Hoc.depthOf ind conn) :
    (st.stack.length < Hoc.depthOf ind conn →
       Hoc.step st line = .error (.inconsistentIndentation line)) ∧
    (Hoc.depthOf ind conn ≤ st.stack.length →
       ∃ st' parent node,
         node = Hoc.TreeNode.mk (String.mk nm) (decide (nm.getLast? = some '/'))
           (posixJoin parent.full_path (String.mk nm)) [] ∧
         Hoc.step st line = .ok st' ∧
         st'.oldRoots = st.oldRoots ∧
         st'.stack.length = Hoc.depthOf ind conn + 1 ∧
         st.stack[Hoc.depthOf ind conn - 1]? = some parent ∧
         st'.stack.getLast? = some node ∧
         st'.stack[Hoc.depthOf ind conn - 1]? = some (Hoc.addChild parent node)) := by
  constructor
  · intro hlt
    unfold Hoc.step
    rw [hm]
    simp only
    rw [if_neg (by omega), if_pos hlt]
  · intro hle
    have hstep : Hoc.step st line =
        .ok ⟨st.oldRoots, Hoc.attachNew (st.stack.take (Hoc.depthOf ind conn))
          (String.mk nm) (decide (nm.getLast? = some '/'))⟩ := by
      unfold Hoc.step
      rw [hm]
      simp only
      rw [if_neg (by omega), if_neg (by omega)]
    have htake_len : (st.stack.take (Hoc.depthOf ind conn)).length =
        Hoc.depthOf ind conn := by
      simp [List.length_take]
      omega
    have htake_ne : st.stack.take (Hoc.depthOf ind conn) ≠ [] := by
      intro hnil
      rw [hnil] at htake_len
      simp at htake_len
      omega
    obtain ⟨parent, hlast, hlen, htip, hpar⟩ :=
      attachNew_spec (st.stack.take (Hoc.depthOf ind conn)) (String.mk nm)
        (decide (nm.getLast? = some '/')) htake_ne
    refine ⟨_, parent, _, rfl, hstep, rfl, ?_, ?_, ?_, ?_⟩
    · simpa [htake_len] using hlen
    · have h1 : (st.stack.take (Hoc.depthOf ind conn)).getLast? =
          (st.stack.take (Hoc.depthOf ind conn))[Hoc.depthOf ind conn - 1]? := by
        rw [List.getLast?_eq_getElem?]
        rw [htake_len]
      rw [h1] at hlast
      rw [List.getElem?_take_of_lt (by omega)] at hlast
      exact hlast
    · exact htip
    · rw [htake_len] at hpar
      exact hpar

/-- Witness for the amended C3 at a concrete state and line: with one open
ancestor on the stack, the line `│   └── x` resolves to depth 2 and the step
fails with the inconsistent-indentation error. -/
theorem c3_amended_depth_check_witness :
    Hoc.step ⟨[], [Hoc.TreeNode.mk "r/" true "r/" []]⟩ "│   └── x".toList =
      .error (.inconsistentIndentation "│   └── x".toList) :=
  (c3_amended_depth_check_and_attachment ⟨[], [.mk "r/" true "r/" []]⟩
    "│   └── x".toList ['│', ' ', ' ', ' '] "x".toList (some '└')
    (by rfl) (by decide)).1 (by decide)

/-! ### The first processed line (C4) -/

lemma dictInsert_ne_nil (m : List (String × Dircreator.DcType)) (k : String)
    (v : Dircreator.DcType) : Dircreator.dictInsert m k v ≠ [] := by
  unfold Dircreator.dictInsert
  split
  · intro hc
    rename_i hany
    rw [List.map_eq_nil_iff] at hc
    subst hc
    simp at hany
  · simp

lemma dictInsert_head_key (m : List (String × Dircreator.DcType)) (k : String)
    (v : Dircreator.DcType) (hm : m ≠ []) :
    ((Dircreator.dictInsert m k v).head?).map Prod.fst = (m.head?).map Prod.fst := by
  cases m with
  | nil => exact absurd rfl hm
  | cons p t =>
    unfold Dircreator.dictInsert
    split
    · simp only [List.map_cons, List.head?_cons, Option.map_some']
      split <;> simp_all
    · simp

lemma dcLoop_head_key (ls : List (List Char)) (idx : Nat) (stack : List String)
    (tree : List (String × Dircreator.DcType)) (hm : tree ≠ []) :
    ((Dircreator.dcLoop ls idx stack tree).head?).map Prod.fst =
      (tree.head?).map Prod.fst := by
  induction ls generalizing idx stack tree with
  | nil => simp [Dircreator.dcLoop]
  | cons l rest ih =>
    rw [Dircreator.dcLoop]
    split
    · exact ih _ _ _ hm
    · split
      · rw [ih _ _ _ (dictInsert_ne_nil _ _ _)]
        exact dictInsert_head_key _ _ _ hm
      · split
        · exact ih _ _ _ hm
        · rw [ih _ _ _ (dictInsert_ne_nil _ _ _)]
          exact dictInsert_head_key _ _ _ hm

/-- Amended C4: what the first processed line does depends on the variant.
In `hoc`, starting from the empty initial state, a classified first line is
treated as a root exactly when its resolved depth is 0 (then it becomes a
root node carrying the full matched name); a first line with positive
resolved depth — leading complete indentation units or a connector token —
raises the inconsistent-indentation error, as the repository's own test
expects. In `dircreator`, the first line always defines the root: the first
entry of the resulting tree dict is the stripped first line with a trailing
`/` appended when missing, regardless of leading whitespace or connector
glyphs. -/
theorem c4_amended_first_line_by_variant :
    (∀ line ind nm : List Char, ∀ conn : Option Char,
       Hoc.matchLine line = some (ind, conn, nm) →
       (Hoc.depthOf ind conn = 0 →
          Hoc.step ⟨[], []⟩ line =
            .ok ⟨[], [.mk (String.mk nm) (decide (nm.getLast? = some '/'))
              (String.mk nm) []]⟩) ∧
       (1 ≤ Hoc.depthOf ind conn →
          Hoc.step ⟨[], []⟩ line = .error (.inconsistentIndentation line))) ∧
    (∀ (l : List Char) (ls : List (List Char)), pyStripL l ≠ [] →
       ((Dircreator.dcLoop (l :: ls) 0 [] []).head?).map Prod.fst =
         some (Dircreator.dcBaseName l)) := by
  constructor
  · intro line ind nm conn hm
    constructor
    · intro hd0
      unfold Hoc.step
      rw [hm]
      simp only
      rw [if_pos hd0]
      rfl
    · intro hd1
      unfold Hoc.step
      rw [hm]
      simp only
      rw [if_neg (by omega), if_pos (by simp; omega)]
  · intro l ls hl
    rw [Dircreator.dcLoop]
    rw [if_neg (by simpa using hl), if_pos rfl]
    rw [dcLoop_head_key _ _ _ _ (dictInsert_ne_nil _ _ _)]
    rfl

/-- Witness for the amended C4: the depth-0 first line `r` becomes a `hoc`
root; the connector-bearing first line `├── x` makes `hoc` fail; and
`dircreator` still roots the connector-bearing, whitespace-indented first
line `  ├── x`, yielding first entry `├── x/`. -/
theorem c4_amended_first_line_witness :
    Hoc.step ⟨[], []⟩ "r".toList = .ok ⟨[], [.mk "r" false "r" []]⟩ ∧
    Hoc.step ⟨[], []⟩ "├── x".toList =
      .error (.inconsistentIndentation "├── x".toList) ∧
    ((Dircreator.dcLoop ["  ├── x".toList] 0 [] []).head?).map Prod.fst =
      some "├── x/" := by
  refine ⟨?_, ?_, ?_⟩
  · have h := (c4_amended_first_line_by_variant.1 "r".toList [] ['r'] none
      (by rfl)).1 (by decide)
    simpa using h
  · exact (c4_amended_first_line_by_variant.1 "├── x".toList [] ['x'] (some '├')
      (by rfl)).2 (by decide)
  · have h := c4_amended_first_line_by_variant.2 "  ├── x".toList [] (by decide)
    simpa [Dircreator.dcBaseName, pyStripL, isPySpace] using h

/-! ### Tree invariants established by the parser (C5, C7) -/

lemma allNodes_eq (t : Hoc.TreeNode) :
    Hoc.allNodes t = t :: Hoc.allNodesList t.children := by
  cases t
  rfl

lemma mem_allNodesList_iff {x : Hoc.TreeNode} {cs : List Hoc.TreeNode} :
    x ∈ Hoc.allNodesList cs ↔ ∃ c ∈ cs, x ∈ Hoc.allNodes c := by
  induction cs with
  | nil => simp [Hoc.allNodesList]
  | cons c cs ih =>
    rw [Hoc.allNodesList]
    simp [ih]

lemma self_mem_allNodes (t : Hoc.TreeNode) : t ∈ Hoc.allNodes t := by
  rw [allNodes_eq]
  exact List.mem_cons_self _ _

lemma dirOK_iff {n : String} {d : Bool} {p : String} {cs : List Hoc.TreeNode} :
    Hoc.DirOK (.mk n d p cs) ↔
      ((cs ≠ [] → d = true) ∧ ∀ c ∈ cs, Hoc.DirOK c) := by
  unfold Hoc.DirOK
  rw [allNodes_eq]
  constructor
  · intro h
    refine ⟨fun hne => h _ (List.mem_cons_self _ _) hne, fun c hc m hm hne => ?_⟩
    exact h m (by
      rw [List.mem_cons]
      right
      rw [Hoc.TreeNode.children, mem_allNodesList_iff]
      exact ⟨c, hc, hm⟩) hne
  · rintro ⟨hd, hcs⟩ m hm hne
    rw [List.mem_cons] at hm
    rcases hm with rfl | hm
    · exact hd hne
    · rw [Hoc.TreeNode.children, mem_allNodesList_iff] at hm
      obtain ⟨c, hc, hm⟩ := hm
      exact hcs c hc m hm hne

lemma pathOK_iff {n : String} {d : Bool} {p : String} {cs : List Hoc.TreeNode} :
    Hoc.PathOK (.mk n d p cs) ↔
      ((∀ c ∈ cs, c.full_path = posixJoin p c.name) ∧ ∀ c ∈ cs, Hoc.PathOK c) := by
  unfold Hoc.PathOK
  rw [allNodes_eq]
  constructor
  · intro h
    constructor
    · intro c hc
      have := h _ (List.mem_cons_self _ _) c (by simpa [Hoc.TreeNode.children] using hc)
      simpa [Hoc.TreeNode.full_path] using this
    · intro c hc m hm x hx
      exact h m (by
        rw [List.mem_cons]
        right
        rw [Hoc.TreeNode.children, mem_allNodesList_iff]
        exact ⟨c, hc, hm⟩) x hx
  · rintro ⟨hp, hcs⟩ m hm x hx
    rw [List.mem_cons] at hm
    rcases hm with rfl | hm
    · simpa [Hoc.TreeNode.full_path] using hp x (by simpa [Hoc.TreeNode.children] using hx)
    · rw [Hoc.TreeNode.children, mem_allNodesList_iff] at hm
      obtain ⟨c, hc, hm⟩ := hm
      exact hcs c hc m hm x hx

lemma dirOK_of_child {t c : Hoc.TreeNode} (h : Hoc.DirOK t)
    (hc : c ∈ t.children) : Hoc.DirOK c := by
  cases t
  exact (dirOK_iff.mp h).2 c (by simpa [Hoc.TreeNode.children] using hc)

lemma pathOK_of_child {t c : Hoc.TreeNode} (h : Hoc.PathOK t)
    (hc : c ∈ t.children) : Hoc.PathOK c := by
  cases t
  exact (pathOK_iff.mp h).2 c (by simpa [Hoc.TreeNode.children] using hc)

lemma dirOK_leaf (nm : String) (b : Bool) (fp : String) :
    Hoc.DirOK (.mk nm b fp []) := by
  rw [dirOK_iff]
  simp

lemma pathOK_leaf (nm : String) (b : Bool) (fp : String) :
    Hoc.PathOK (.mk nm b fp []) := by
  rw [pathOK_iff]
  simp

lemma dirOK_addChild {p c : Hoc.TreeNode} (hp : Hoc.DirOK p) (hc : Hoc.DirOK c) :
    Hoc.DirOK (Hoc.addChild p c) := by
  unfold Hoc.addChild
  rw [dirOK_iff]
  refine ⟨fun _ => rfl, fun x hx => ?_⟩
  rw [List.mem_append] at hx
  rcases hx with hx | hx
  · exact dirOK_of_child hp hx
  · rw [List.mem_singleton] at hx
    subst hx
    exact hc

lemma pathOK_addChild {p c : Hoc.TreeNode} (hp : Hoc.PathOK p) (hc : Hoc.PathOK c)
    (hrel : c.full_path = posixJoin p.full_path c.name) :
    Hoc.PathOK (Hoc.addChild p c) := by
  unfold Hoc.addChild
  rw [pathOK_iff]
  constructor
  · intro x hx
    rw [List.mem_append] at hx
    rcases hx with hx | hx
    · cases p
      exact (pathOK_iff.mp hp).1 x (by simpa [Hoc.TreeNode.children] using hx)
    · rw [List.mem_singleton] at hx
      subst hx
      exact hrel
  · intro x hx
    rw [List.mem_append] at hx
    rcases hx with hx | hx
    · exact pathOK_of_child hp hx
    · rw [List.mem_singleton] at hx
      subst hx
      exact hc

lemma dirOK_withLastChild {p r : Hoc.TreeNode} (hp : Hoc.DirOK p)
    (hr : Hoc.DirOK r) (hne : p.children ≠ []) :
    Hoc.DirOK (Hoc.withLastChild p r) := by
  unfold Hoc.withLastChild
  rw [dirOK_iff]
  refine ⟨fun _ => hp p (self_mem_allNodes p) hne, fun x hx => ?_⟩
  rw [List.mem_append] at hx
  rcases hx with hx | hx
  · exact dirOK_of_child hp (List.dropLast_subset _ hx)
  · rw [List.mem_singleton] at hx
    subst hx
    exact hr

lemma pathOK_withLastChild {p q r : Hoc.TreeNode} (hp : Hoc.PathOK p)
    (hr : Hoc.PathOK r) (hq : p.children.getLast? = some q)
    (hname : r.name = q.name) (hpath : r.full_path = q.full_path) :
    Hoc.PathOK (Hoc.withLastChild p r) := by
  have hqmem : q ∈ p.children := List.mem_of_mem_getLast? hq
  unfold Hoc.withLastChild
  rw [pathOK_iff]
  constructor
  · intro x hx
    rw [List.mem_append] at hx
    rcases hx with hx | hx
    · cases p
      exact (pathOK_iff.mp hp).1 x
        (by simpa [Hoc.TreeNode.children] using List.dropLast_subset _ hx)
    · rw [List.mem_singleton] at hx
      subst hx
      rw [hpath, hname]
      cases p
      exact (pathOK_iff.mp hp).1 q (by simpa [Hoc.TreeNode.children] using hqmem)
  · intro x hx
    rw [List.mem_append] at hx
    rcases hx with hx | hx
    · exact pathOK_of_child hp (List.dropLast_subset _ hx)
    · rw [List.mem_singleton] at hx
      subst hx
      exact hr

lemma attachNew_preserve (t : List Hoc.TreeNode) :
    ∀ (p : Hoc.TreeNode) (nm : String) (b : Bool),
    ChainOK (p :: t) → (∀ x ∈ p :: t, Hoc.DirOK x ∧ Hoc.PathOK x) →
    ∃ r rest', Hoc.attachNew (p :: t) nm b = r :: rest' ∧
      r.name = p.name ∧ r.full_path = p.full_path ∧
      ChainOK (r :: rest') ∧ ∀ x ∈ r :: rest', Hoc.DirOK x ∧ Hoc.PathOK x := by
  induction t with
  | nil =>
    intro p nm b hchain hall
    obtain ⟨hdir, hpath⟩ := hall p (List.mem_cons_self _ _)
    refine ⟨Hoc.addChild p (.mk nm b (posixJoin p.full_path nm) []), _, by
      rw [Hoc.attachNew], ?_, ?_, ?_, ?_⟩
    · rfl
    · rfl
    · refine ChainOK.cons _ _ _ ?_ (ChainOK.single _)
      unfold Hoc.addChild
      rw [Hoc.TreeNode.children]
      exact List.getLast?_concat _
    · intro x hx
      rw [List.mem_cons, List.mem_singleton] at hx
      rcases hx with rfl | rfl
      · exact ⟨dirOK_addChild hdir (dirOK_leaf _ _ _),
          pathOK_addChild hpath (pathOK_leaf _ _ _) rfl⟩
      · exact ⟨dirOK_leaf _ _ _, pathOK_leaf _ _ _⟩
  | cons q rest ih =>
    intro p nm b hchain hall
    have hq : p.children.getLast? = some q := by
      cases hchain with
      | cons _ _ _ h _ => exact h
    have hchain' : ChainOK (q :: rest) := by
      cases hchain with
      | cons _ _ _ _ hc => exact hc
    obtain ⟨hdirp, hpathp⟩ := hall p (List.mem_cons_self _ _)
    obtain ⟨r, rest', heq, hname, hpath, hchainr, hallr⟩ :=
      ih q nm b hchain' (fun x hx => hall x (List.mem_cons_of_mem _ hx))
    obtain ⟨hdirr, hpathr⟩ := hallr r (List.mem_cons_self _ _)
    have hdef : Hoc.attachNew (p :: q :: rest) nm b =
        Hoc.withLastChild p r :: r :: rest' := by
      rw [Hoc.attachNew, heq]
    have hpne : p.children ≠ [] := by
      intro hnil
      rw [hnil] at hq
      simp at hq
    refine ⟨Hoc.withLastChild p r, r :: rest', hdef, rfl, rfl, ?_, ?_⟩
    · refine ChainOK.cons _ _ _ ?_ hchainr
      unfold Hoc.withLastChild
      rw [Hoc.TreeNode.children]
      exact List.getLast?_concat _
    · intro x hx
      rw [List.mem_cons] at hx
      rcases hx with rfl | hx
      · exact ⟨dirOK_withLastChild hdirp hdirr hpne,
          pathOK_withLastChild hpathp hpathr hq hname hpath⟩
      · exact hallr x hx

lemma chainOK_take (n : Nat) {s : List Hoc.TreeNode} (h : ChainOK s) :
    ChainOK (s.take n) := by
  induction h generalizing n with
  | nil => simpa using ChainOK.nil
  | single t =>
    cases n with
    | zero => exact ChainOK.nil
    | succ m => simpa using ChainOK.single t
  | cons p q rest hq hc ih =>
    cases n with
    | zero => exact ChainOK.nil
    | succ m =>
      cases m with
      | zero => simpa using ChainOK.single p
      | succ k =>
        rw [List.take_succ_cons, List.take_succ_cons]
        exact ChainOK.cons p q _ hq (by simpa using ih (k + 1))

lemma step_preserve {st st' : Hoc.ParseState} {line : List Char}
    (hinv : Hoc.StInv st) (h : Hoc.step st line = .ok st') : Hoc.StInv st' := by
  unfold Hoc.step at h
  cases hm : Hoc.matchLine line with
  | none => rw [hm] at h; simp at h
  | some v =>
    obtain ⟨ind, conn, nm⟩ := v
    rw [hm] at h
    simp only at h
    split at h
    · have hst : st' = ⟨st.oldRoots ++ st.stack.take 1,
        [.mk (String.mk nm) (decide (nm.getLast? = some '/')) (String.mk nm) []]⟩ :=
        (Except.ok.inj h).symm
      subst hst
      refine ⟨?_, ?_, ?_⟩
      · intro r hr
        rw [List.mem_append] at hr
        rcases hr with hr | hr
        · exact hinv.1 r hr
        · exact hinv.2.1 r (List.take_subset _ _ hr)
      · intro x hx
        rw [List.mem_singleton] at hx
        subst hx
        exact ⟨dirOK_leaf _ _ _, pathOK_leaf _ _ _⟩
      · exact ChainOK.single _
    · split at h
      · exact absurd h (by simp)
      · have hst : st' = ⟨st.oldRoots,
            Hoc.attachNew (st.stack.take (Hoc.depthOf ind conn)) (String.mk nm)
              (decide (nm.getLast? = some '/'))⟩ :=
          (Except.ok.inj h).symm
        subst hst
        have hdpos : 1 ≤ Hoc.depthOf ind conn := by omega
        have hdle : Hoc.depthOf ind conn ≤ st.stack.length := by omega
        cases htk : st.stack.take (Hoc.depthOf ind conn) with
        | nil =>
          have hlen := congrArg List.length htk
          rw [List.length_take] at hlen
          simp only [List.length_nil] at hlen
          omega
        | cons p t =>
          have hchain : ChainOK (p :: t) := htk ▸ chainOK_take _ hinv.2.2
          have hall : ∀ x ∈ p :: t, Hoc.DirOK x ∧ Hoc.PathOK x := by
            intro x hx
            exact hinv.2.1 x (List.take_subset _ _ (htk ▸ hx))
          obtain ⟨r, rest', heq, -, -, hchainr, hallr⟩ :=
            attachNew_preserve t p (String.mk nm)
              (decide (nm.getLast? = some '/')) hchain hall
          refine ⟨hinv.1, ?_, ?_⟩
          · intro x hx
            simp only [htk, heq] at hx
            exact hallr x hx
          · simp only [htk, heq]
            exact hchainr

lemma parseLines_preserve (lines : List (List Char)) :
    ∀ {st st' : Hoc.ParseState}, Hoc.StInv st →
    Hoc.parseLines lines st = .ok st' → Hoc.StInv st' := by
  induction lines with
  | nil =>
    intro st st' hinv h
    rw [Hoc.parseLines] at h
    rw [← Except.ok.inj h]
    exact hinv
  | cons l ls ih =>
    intro st st' hinv h
    rw [Hoc.parseLines] at h
    split at h
    · exact ih hinv h
    · cases hs : Hoc.step st l with
      | error e => rw [hs] at h; simp at h
      | ok st'' =>
        rw [hs] at h
        exact ih (step_preserve hinv hs) h

lemma parse_inv {s : String} {roots : List Hoc.TreeNode}
    (h : Hoc.parse_tree_structure s = .ok roots) :
    ∀ r ∈ roots, Hoc.DirOK r ∧ Hoc.PathOK r := by
  unfold Hoc.parse_tree_structure at h
  simp only at h
  split at h
  · simp at h
  · cases hp : Hoc.parseLines ((splitNl (pyStripL s.toList)).map replaceTabs)
        ⟨[], []⟩ with
    | error e => rw [hp] at h; simp [Except.map] at h
    | ok st =>
      rw [hp] at h
      simp only [Except.map] at h
      have hroots : roots = st.oldRoots ++ st.stack.take 1 := (Except.ok.inj h).symm
      have hinv : Hoc.StInv st :=
        parseLines_preserve _ ⟨by simp, by simp, ChainOK.nil⟩ hp
      intro r hr
      rw [hroots, List.mem_append] at hr
      rcases hr with hr | hr
      · exact hinv.1 r hr
      · exact hinv.2.1 r (List.take_subset _ _ hr)

/-- Amended C5: in the `hoc` variant the claim holds — every node of a parsed
tree that has at least one child carries `is_dir = true` (the flag is forced
on first child attachment), and the materializer takes the directory branch
for any node with children, issuing a directory creation for its path. In the
`dircreator` variant there is no promotion: an entry without a trailing
marker keeps type `file` even when later entries are nested beneath it, and
it is materialized by file creation (see the counterexample). -/
theorem c5_amended_promotion_hoc_only :
    (∀ (s : String) (roots : List Hoc.TreeNode),
       Hoc.parse_tree_structure s = .ok roots →
       ∀ r ∈ roots, ∀ m ∈ Hoc.allNodes r, m.children ≠ [] → m.is_dir = true) ∧
    (∀ (bp : String) (dp fp : Option Nat) (n : Hoc.TreeNode),
       n.children ≠ [] →
       ∃ rest, Hoc.create_node_structure bp dp fp n =
         .mkdirs (posixJoin bp n.full_path) :: rest) := by
  constructor
  · intro s roots h r hr m hm hne
    exact (parse_inv h r hr).1 m hm hne
  · intro bp dp fp n hne
    cases n with
    | mk nm d p cs =>
      rw [Hoc.create_node_structure.eq_def]
      simp only
      rw [if_pos (by simp only [Hoc.TreeNode.children] at hne; simp [hne])]
      exact ⟨_, rfl⟩

/-- Witness for the amended C5: parsing `r` then `└── c` promotes the
markerless root `r` (it gains the child `c`), and its materialization starts
with a directory creation. -/
theorem c5_amended_promotion_witness :
    (Hoc.TreeNode.mk "r" true "r" [.mk "c" false "r/c" []]).is_dir = true ∧
    ∃ rest, Hoc.create_node_structure "/tmp/x" none none
        (.mk "r" true "r" [.mk "c" false "r/c" []]) =
      .mkdirs (posixJoin "/tmp/x"
        (Hoc.TreeNode.mk "r" true "r" [.mk "c" false "r/c" []]).full_path) :: rest := by
  constructor
  · exact c5_amended_promotion_hoc_only.1 "r\n└── c"
      [.mk "r" true "r" [.mk "c" false "r/c" []]] (by rfl)
      (.mk "r" true "r" [.mk "c" false "r/c" []]) (by simp)
      (.mk "r" true "r" [.mk "c" false "r/c" []])
      (by rw [allNodes_eq]; exact List.mem_cons_self _ _)
      (by simp [Hoc.TreeNode.children])
  · exact c5_amended_promotion_hoc_only.2 "/tmp/x" none none
      (.mk "r" true "r" [.mk "c" false "r/c" []])
      (by simp [Hoc.TreeNode.children])

/-! ### Path construction (C7) -/

lemma noDoubleSep_append {xs : List Char} :
    ∀ {ys : List Char}, noDoubleSep xs = true → noDoubleSep ys = true →
    ¬(xs.getLast? = some '/' ∧ ys.head? = some '/') →
    noDoubleSep (xs ++ ys) = true := by
  induction xs using noDoubleSep.induct with
  | case1 =>
    intro ys hx hy hb
    simpa using hy
  | case2 x =>
    intro ys hx hy hb
    cases ys with
    | nil => simp [noDoubleSep]
    | cons y ys' =>
      rw [List.singleton_append, noDoubleSep]
      have hxy : (x == '/' && y == '/') = false := by
        by_cases hxs : x = '/'
        · by_cases hys : y = '/'
          · exact absurd ⟨by simp [hxs], by simp [hys]⟩ hb
          · simp [hys]
        · simp [hxs]
      rw [hxy, hy]
      rfl
  | case3 a b rest ih =>
    intro ys hx hy hb
    rw [List.cons_append, List.cons_append, noDoubleSep, ← List.cons_append]
    rw [noDoubleSep] at hx
    rw [Bool.and_eq_true] at hx ⊢
    refine ⟨hx.1, ih hx.2 hy ?_⟩
    rw [List.getLast?_cons_cons] at hb
    exact hb

/-- Amended C7: node names are stored with the trailing marker intact, and
path construction joins the parent's stored path with the raw child name —
the marker is not stripped (a directory's constructed path ends with the
marker, see the counterexample). No doubled separators arise from the join
itself, because the separator-aware join inserts a separator only when the
left part does not already end with one: joining any two separator-clean
strings whose right part does not start with a separator is separator-clean.
Parsing establishes the join relation for every parent/child pair of the
resulting forest. -/
theorem c7_amended_paths_join_marker_intact :
    (∀ (s : String) (roots : List Hoc.TreeNode),
       Hoc.parse_tree_structure s = .ok roots →
       ∀ r ∈ roots, ∀ m ∈ Hoc.allNodes r, ∀ c ∈ m.children,
         c.full_path = posixJoin m.full_path c.name) ∧
    (∀ a b : String, noDoubleSep a.toList = true → noDoubleSep b.toList = true →
       b.toList.head? ≠ some '/' → noDoubleSep (posixJoin a b).toList = true) := by
  constructor
  · intro s roots h r hr m hm c hc
    exact (parse_inv h r hr).2 m hm c hc
  · intro a b ha hb hbh
    unfold posixJoin
    rw [if_neg hbh]
    split
    · rw [String.toList, String.data_append]
      refine noDoubleSep_append ha hb ?_
      rintro ⟨-, hcon⟩
      exact hbh hcon
    · rename_i hcond
      rw [Bool.or_eq_true, not_or] at hcond
      rw [String.toList, String.data_append, String.data_append]
      have hmid : noDoubleSep ("/" : String).data = true := by decide
      refine noDoubleSep_append (noDoubleSep_append ha hmid ?_) hb ?_
      · rintro ⟨hlast, -⟩
        exact hcond.2 (by simp [hlast])
      · rintro ⟨hlast, hhead⟩
        exact hbh hhead

/-- Witness for the amended C7: the parsed child `a/` of `root/` has path
`root/a/` = join of `root/` and `a/` (marker intact), and joining the clean
strings `/tmp/x` and `root` yields the clean `/tmp/x/root`. -/
theorem c7_amended_paths_witness :
    (Hoc.TreeNode.mk "a/" true "root/a/" []).full_path =
      posixJoin (Hoc.TreeNode.mk "root/" true "root/"
        [.mk "a/" true "root/a/" []]).full_path
        (Hoc.TreeNode.mk "a/" true "root/a/" []).name ∧
    noDoubleSep (posixJoin "/tmp/x" "root").toList = true := by
  constructor
  · exact c7_amended_paths_join_marker_intact.1 "root/\n└── a/"
      [.mk "root/" true "root/" [.mk "a/" true "root/a/" []]] (by rfl)
      (.mk "root/" true "root/" [.mk "a/" true "root/a/" []]) (by simp)
      (.mk "root/" true "root/" [.mk "a/" true "root/a/" []])
      (by rw [allNodes_eq]; exact List.mem_cons_self _ _)
      (.mk "a/" true "root/a/" []) (by simp [Hoc.TreeNode.children])
  · exact c7_amended_paths_join_marker_intact.2 "/tmp/x" "root"
      (by decide) (by decide) (by decide)

/-! ### Effects before parsing completes (C8) -/

/-- Amended C8: apart from creating the absent base directory — which both
variants do before reading or parsing any input — a run that ends with a
parse-stage error performs no filesystem mutation: no effect of the parsed
tree is ever issued. For `hoc` this covers every parse error (empty input,
malformed line, inconsistent indentation); `dircreator`'s only parse-stage
abort is empty input. -/
theorem c8_amended_base_dir_is_only_premutation :
    (∀ (baseExists : Bool) (basePath input : String) (dp fp : Option Nat)
       (e : Hoc.ParseError),
       Hoc.parse_tree_structure input = .error e →
       Hoc.mainEffects baseExists basePath input dp fp =
         if baseExists then [] else [.mkdirs basePath]) ∧
    (∀ (baseExists : Bool) (basePath input : String),
       (pyStripL input.toList).isEmpty = true →
       Dircreator.dcMainEffects baseExists basePath input =
         if baseExists then [] else [.mkdirs basePath]) := by
  constructor
  · intro be bp input dp fp e herr
    unfold Hoc.mainEffects
    rw [herr]
    cases be <;> simp
  · intro be bp input hempty
    unfold Dircreator.dcMainEffects
    rw [hempty]
    cases be <;> simp

/-! ### Unrecognized lines (C6) -/

/-- Amended C6: no non-blank line fails both patterns, so the claimed
malformed-line failure cannot occur; what each variant actually does differs.
In `hoc` every processed (non-blank) line is classified by the combined
pattern, so a step never produces the "Invalid line format" error. In
`dircreator` a non-first line that fails its mandatory-connector pattern is
silently skipped — the parse continues on the remaining lines with state and
tree unchanged, and no error of any kind is raised. -/
theorem c6_amended_no_malformed_error_silent_skip :
    (∀ (st : Hoc.ParseState) (line : List Char),
       (pyStripL line).isEmpty = false →
       ∀ l, Hoc.step st line ≠ .error (.invalidLineFormat l)) ∧
    (∀ (l : List Char) (ls : List (List Char)) (idx : Nat) (stack : List String)
       (tree : List (String × Dircreator.DcType)), idx ≠ 0 →
       Dircreator.dcMatchLine l = none →
       Dircreator.dcLoop (l :: ls) idx stack tree =
         Dircreator.dcLoop ls (idx + 1) stack tree) := by
  constructor
  · intro st line hnb l
    have hne : line ≠ [] := by
      intro hnil
      subst hnil
      simp [pyStripL] at hnb
    exact step_not_invalid hne l
  · intro l ls idx stack tree hidx hnone
    rw [Dircreator.dcLoop]
    by_cases hblank : (pyStripL l).isEmpty = true
    · rw [if_pos hblank]
    · rw [if_neg hblank, if_neg hidx, hnone]

/-- Witness for the amended C6: the non-blank line `x` never yields the
malformed-line error in `hoc`, and `dircreator` skips the unmatched second
line `xxx` leaving state and tree untouched. -/
theorem c6_amended_silent_skip_witness :
    Hoc.step ⟨[], []⟩ "x".toList ≠ .error (.invalidLineFormat "x".toList) ∧
    Dircreator.dcLoop ["xxx".toList] 1 ["r/"] [("r/", .dir)] =
      Dircreator.dcLoop [] 2 ["r/"] [("r/", .dir)] :=
  ⟨c6_amended_no_malformed_error_silent_skip.1 ⟨[], []⟩ "x".toList (by decide)
     "x".toList,
   c6_amended_no_malformed_error_silent_skip.2 "xxx".toList [] 1 ["r/"]
     [("r/", .dir)] (by decide) (by rfl)⟩

/-! ### Permission application (C9) -/

lemma chmod_free_pair (bp : String) :
    (∀ n : Hoc.TreeNode, ∀ e ∈ Hoc.create_node_structure bp none none n,
       ∀ p m, e ≠ .chmod p m) ∧
    (∀ cs : List Hoc.TreeNode, ∀ e ∈ Hoc.createChildrenStructure bp none none cs,
       ∀ p m, e ≠ .chmod p m) := by
  refine Hoc.create_node_structure.mutual_induct bp none none
    (fun n => ∀ e ∈ Hoc.create_node_structure bp none none n, ∀ p m, e ≠ .chmod p m)
    (fun cs => ∀ e ∈ Hoc.createChildrenStructure bp none none cs, ∀ p m, e ≠ .chmod p m)
    ?_ ?_ ?_ ?_
  · intro a d fp cs hcond ih e he p m
    rw [Hoc.create_node_structure.eq_def] at he
    simp only [if_pos hcond] at he
    rw [List.mem_cons] at he
    rcases he with rfl | he
    · simp
    · rw [List.nil_append] at he
      exact ih e he p m
  · intro a d fp cs hcond e he p m
    rw [Hoc.create_node_structure.eq_def] at he
    simp only [if_neg hcond] at he
    rw [List.append_nil, List.mem_cons, List.mem_singleton] at he
    rcases he with rfl | rfl <;> simp
  · intro e he p m
    rw [Hoc.createChildrenStructure] at he
    simp at he
  · intro c cs ihc ihcs e he p m
    rw [Hoc.createChildrenStructure, List.mem_append] at he
    rcases he with he | he
    · exact ihc e he p m
    · exact ihcs e he p m

lemma file_chmod_pair (bp : String) (dp fp : Nat) :
    (∀ n : Hoc.TreeNode, ∀ pth,
       FsEffect.createFile pth ∈ Hoc.create_node_structure bp (some dp) (some fp) n →
       FsEffect.chmod pth fp ∈ Hoc.create_node_structure bp (some dp) (some fp) n) ∧
    (∀ cs : List Hoc.TreeNode, ∀ pth,
       FsEffect.createFile pth ∈ Hoc.createChildrenStructure bp (some dp) (some fp) cs →
       FsEffect.chmod pth fp ∈ Hoc.createChildrenStructure bp (some dp) (some fp) cs) := by
  refine Hoc.create_node_structure.mutual_induct bp (some dp) (some fp)
    (fun n => ∀ pth,
       FsEffect.createFile pth ∈ Hoc.create_node_structure bp (some dp) (some fp) n →
       FsEffect.chmod pth fp ∈ Hoc.create_node_structure bp (some dp) (some fp) n)
    (fun cs => ∀ pth,
       FsEffect.createFile pth ∈ Hoc.createChildrenStructure bp (some dp) (some fp) cs →
       FsEffect.chmod pth fp ∈ Hoc.createChildrenStructure bp (some dp) (some fp) cs)
    ?_ ?_ ?_ ?_
  · intro a d fpath cs hcond ih pth he
    rw [Hoc.create_node_structure.eq_def] at he ⊢
    simp only [if_pos hcond] at he ⊢
    rw [List.mem_cons] at he
    rcases he with he | he
    · exact absurd he (by simp)
    · rw [List.singleton_append, List.mem_cons] at he
      rcases he with he | he
      · exact absurd he (by simp)
      · rw [List.mem_cons, List.singleton_append, List.mem_cons]
        exact Or.inr (Or.inr (ih pth he))
  · intro a d fpath cs hcond pth he
    rw [Hoc.create_node_structure.eq_def] at he ⊢
    simp only [if_neg hcond] at he ⊢
    rw [List.mem_append, List.mem_cons, List.mem_singleton] at he
    rcases he with (he | he) | he
    · exact absurd he (by simp)
    · rw [FsEffect.createFile.injEq] at he
      subst he
      simp
    · exact absurd he (by simp)
  · intro pth he
    rw [Hoc.createChildrenStructure] at he
    simp at he
  · intro c cs ihc ihcs pth he
    rw [Hoc.createChildrenStructure, List.mem_append] at he ⊢
    rcases he with he | he
    · exact Or.inl (ihc pth he)
    · exact Or.inr (ihcs pth he)

lemma dir_chmod_pair (bp : String) (dp fp : Nat) :
    (∀ n : Hoc.TreeNode, ∀ m ∈ Hoc.allNodes n,
       (m.is_dir = true ∨ m.children ≠ []) →
       FsEffect.chmod (posixJoin bp m.full_path) dp ∈
         Hoc.create_node_structure bp (some dp) (some fp) n) ∧
    (∀ cs : List Hoc.TreeNode, ∀ m ∈ Hoc.allNodesList cs,
       (m.is_dir = true ∨ m.children ≠ []) →
       FsEffect.chmod (posixJoin bp m.full_path) dp ∈
         Hoc.createChildrenStructure bp (some dp) (some fp) cs) := by
  refine Hoc.create_node_structure.mutual_induct bp (some dp) (some fp)
    (fun n => ∀ m ∈ Hoc.allNodes n,
       (m.is_dir = true ∨ m.children ≠ []) →
       FsEffect.chmod (posixJoin bp m.full_path) dp ∈
         Hoc.create_node_structure bp (some dp) (some fp) n)
    (fun cs => ∀ m ∈ Hoc.allNodesList cs,
       (m.is_dir = true ∨ m.children ≠ []) →
       FsEffect.chmod (posixJoin bp m.full_path) dp ∈
         Hoc.createChildrenStructure bp (some dp) (some fp) cs)
    ?_ ?_ ?_ ?_
  · intro a d fpath cs hcond ih m hm hpre
    rw [Hoc.create_node_structure.eq_def]
    simp only [if_pos hcond]
    rw [allNodes_eq] at hm
    rw [List.mem_cons] at hm
    rcases hm with rfl | hm
    · rw [Hoc.TreeNode.full_path]
      simp
    · rw [Hoc.TreeNode.children] at hm
      rw [List.mem_cons, List.singleton_append, List.mem_cons]
      exact Or.inr (Or.inr (ih m hm hpre))
  · intro a d fpath cs hcond m hm hpre
    obtain ⟨hd, hcs⟩ : d = false ∧ cs = [] := by
      cases d
      · cases cs
        · exact ⟨rfl, rfl⟩
        · exact absurd (by simp) hcond
      · exact absurd (by simp) hcond
    subst hd hcs
    rw [allNodes_eq] at hm
    simp only [Hoc.TreeNode.children, Hoc.allNodesList] at hm
    rw [List.mem_singleton] at hm
    subst hm
    rcases hpre with hpre | hpre
    · rw [Hoc.TreeNode.is_dir] at hpre
      exact absurd hpre (by simp)
    · rw [Hoc.TreeNode.children] at hpre
      exact absurd rfl hpre
  · intro m hm hpre
    rw [Hoc.allNodesList] at hm
    simp at hm
  · intro c cs ihc ihcs m hm hpre
    rw [Hoc.allNodesList, List.mem_append] at hm
    rw [Hoc.createChildrenStructure, List.mem_append]
    rcases hm with hm | hm
    · exact Or.inl (ihc m hm hpre)
    · exact Or.inr (ihcs m hm hpre)

/-- Amended C9: in the `hoc` variant the claim holds — the two modes are
independent optional settings: with both absent, materialization emits no
`chmod` at all (the platform default is untouched); with directory mode `dp`
and file mode `fp` configured, every created file receives `chmod fp` on its
path, and every directory node of the tree (marker-flagged or with children)
receives `chmod dp` on its path. In the `dircreator` variant permissions are
not configurable and are applied unconditionally: every entry is chmod-ed,
directories always to 755 (see the counterexample). -/
theorem c9_amended_optional_modes_hoc_only :
    (∀ (bp : String) (n : Hoc.TreeNode),
       ∀ e ∈ Hoc.create_node_structure bp none none n, ∀ p m, e ≠ .chmod p m) ∧
    (∀ (bp : String) (dp fp : Nat) (n : Hoc.TreeNode) (pth : String),
       FsEffect.createFile pth ∈ Hoc.create_node_structure bp (some dp) (some fp) n →
       FsEffect.chmod pth fp ∈ Hoc.create_node_structure bp (some dp) (some fp) n) ∧
    (∀ (bp : String) (dp fp : Nat) (n : Hoc.TreeNode),
       ∀ m ∈ Hoc.allNodes n, (m.is_dir = true ∨ m.children ≠ []) →
       FsEffect.chmod (posixJoin bp m.full_path) dp ∈
         Hoc.create_node_structure bp (some dp) (some fp) n) ∧
    (∀ (pth : String) (t : Dircreator.DcType),
       ∃ m, Dircreator.dc_set_permissions pth t = .chmod pth m ∧
         (t = .dir → m = 0o755)) := by
  refine ⟨?_, ?_, ?_, ?_⟩
  · intro bp n
    exact (chmod_free_pair bp).1 n
  · intro bp dp fp n
    exact (file_chmod_pair bp dp fp).1 n
  · intro bp dp fp n
    exact (dir_chmod_pair bp dp fp).1 n
  · intro pth t
    cases t with
    | dir => exact ⟨0o755, rfl, fun _ => rfl⟩
    | file =>
      unfold Dircreator.dc_set_permissions
      split
      · simp_all
      · split
        · exact ⟨0o755, rfl, by simp⟩
        · exact ⟨0o644, rfl, by simp⟩

/-- Witness for the amended C9 at the C1 example tree: no chmod with modes
absent, the file `b.txt` gets mode 644, the directory `a/` gets mode 755, and
`dircreator`'s unconditional directory chmod is 755. -/
theorem c9_amended_optional_modes_witness :
    ((.chmod "/tmp/x/root/a/b.txt" 0o644 : FsEffect) ∉
       Hoc.create_node_structure "/tmp/x" none none
         (.mk "root/" true "root/"
           [.mk "a/" true "root/a/" [.mk "b.txt" false "root/a/b.txt" []]])) ∧
    (FsEffect.chmod "/tmp/x/root/a/b.txt" 0o644 ∈
       Hoc.create_node_structure "/tmp/x" (some 0o755) (some 0o644)
         (.mk "root/" true "root/"
           [.mk "a/" true "root/a/" [.mk "b.txt" false "root/a/b.txt" []]])) ∧
    (FsEffect.chmod (posixJoin "/tmp/x"
        (Hoc.TreeNode.mk "a/" true "root/a/"
          [.mk "b.txt" false "root/a/b.txt" []]).full_path) 0o755 ∈
       Hoc.create_node_structure "/tmp/x" (some 0o755) (some 0o644)
         (.mk "root/" true "root/"
           [.mk "a/" true "root/a/" [.mk "b.txt" false "root/a/b.txt" []]])) ∧
    (∃ m, Dircreator.dc_set_permissions "/b/r/" .dir = .chmod "/b/r/" m ∧
       (Dircreator.DcType.dir = .dir → m = 0o755)) := by
  refine ⟨?_, ?_, ?_, ?_⟩
  · intro hmem
    exact c9_amended_optional_modes_hoc_only.1 "/tmp/x" _ _ hmem
      "/tmp/x/root/a/b.txt" 0o644 rfl
  · refine c9_amended_optional_modes_hoc_only.2.1 "/tmp/x" 0o755 0o644 _
      "/tmp/x/root/a/b.txt" ?_
    show FsEffect.createFile "/tmp/x/root/a/b.txt" ∈
      Hoc.create_node_structure "/tmp/x" (some 0o755) (some 0o644)
        (.mk "root/" true "root/"
          [.mk "a/" true "root/a/" [.mk "b.txt" false "root/a/b.txt" []]])
    have : Hoc.create_node_structure "/tmp/x" (some 0o755) (some 0o644)
        (.mk "root/" true "root/"
          [.mk "a/" true "root/a/" [.mk "b.txt" false "root/a/b.txt" []]]) =
        [.mkdirs "/tmp/x/root/", .chmod "/tmp/x/root/" 0o755,
         .mkdirs "/tmp/x/root/a/", .chmod "/tmp/x/root/a/" 0o755,
         .mkdirs "/tmp/x/root/a", .createFile "/tmp/x/root/a/b.txt",
         .chmod "/tmp/x/root/a/b.txt" 0o644] := by rfl
    rw [this]
    simp
  · refine c9_amended_optional_modes_hoc_only.2.2.1 "/tmp/x" 0o755 0o644 _
      (.mk "a/" true "root/a/" [.mk "b.txt" false "root/a/b.txt" []]) ?_ ?_
    · rw [allNodes_eq]
      rw [List.mem_cons]
      right
      rw [Hoc.TreeNode.children, mem_allNodesList_iff]
      exact ⟨_, List.mem_singleton.mpr rfl, self_mem_allNodes _⟩
    · left
      rfl
  · exact c9_amended_optional_modes_hoc_only.2.2.2 "/b/r/" .dir

/-- Witness for the amended C8: with an absent base path and the failing
input `├── x`, both variants' runs issue only the base-directory creation
(`dircreator` shown on blank input). -/
theorem c8_amended_base_dir_witness :
    Hoc.mainEffects false "/base" "├── x" none none = [.mkdirs "/base"] ∧
    Dircreator.dcMainEffects false "/base" " " = [.mkdirs "/base"] := by
  constructor
  · have h := c8_amended_base_dir_is_only_premutation.1 false "/base" "├── x"
      none none (.inconsistentIndentation "├── x".toList) (by rfl)
    simpa using h
  · have h := c8_amended_base_dir_is_only_premutation.2 false "/base" " "
      (by decide)
    simpa using h
